import Mathlib

/-!
Verification of the subrou_rs DSP core against its specification.

The numerical code of the repository (`src/envelope.rs`, `src/wave.rs`, and the
routing/mono-reduction part of `SubrouRs::process` in `src/lib.rs`) is embedded
shallowly: 32-bit floats are modelled as real numbers, slices as lists, and the
in-place loops as structurally recursive functions.  The `assert_eq!` in
`apply_gain_curve` is modelled as an `Option` that is `none` exactly when the
assertion would panic.
-/

open Real

/-- Smoothing coefficient derived from a time constant in milliseconds
(`envelope.rs`, lines 2-13): `1` when the time constant is non-positive,
otherwise `1 - exp (-2.2 / (t_ms * 0.001 * sample_rate))`. -/
noncomputable def coeffOf (t_ms sample_rate : ℝ) : ℝ :=
  if t_ms ≤ 0 then 1 else 1 - Real.exp (-2.2 / (t_ms * 0.001 * sample_rate))

/-- One iteration of the envelope loop (`envelope.rs`, lines 18-23):
rectify the sample, pick the attack coefficient when the target exceeds the
current level and the release coefficient otherwise, and move the level
toward the target by that fraction. -/
noncomputable def envStep (attack_coeff release_coeff env s : ℝ) : ℝ :=
  if |s| > env then env + attack_coeff * (|s| - env)
  else env + release_coeff * (|s| - env)

/-- The envelope loop of `envelope_follower` threading the level `env`
through the samples and emitting the updated level after each sample. -/
noncomputable def envelopeFrom (ac rc env : ℝ) : List ℝ → List ℝ
  | [] => []
  | s :: rest => envStep ac rc env s :: envelopeFrom ac rc (envStep ac rc env s) rest

/-- `envelope_follower` (`envelope.rs`, lines 1-27): derive the two
coefficients from `attack_ms`, `release_ms` and `sample_rate`, then run the
per-sample loop starting from level `0`. -/
noncomputable def envelope_follower (samples : List ℝ)
    (attack_ms release_ms sample_rate : ℝ) : List ℝ :=
  envelopeFrom (coeffOf attack_ms sample_rate) (coeffOf release_ms sample_rate) 0 samples

/-- Coefficient as the specification words it: `1` for a non-positive time
constant, otherwise `1 - exp (-2.2 / samples_for_time)` with
`samples_for_time = t_ms * 0.001 * sample_rate`. -/
noncomputable def specCoeff (t_ms sample_rate : ℝ) : ℝ :=
  if t_ms ≤ 0 then 1
  else 1 - Real.exp (-2.2 / (t_ms * 0.001 * sample_rate))

/-- Per-sample update as the specification words it: `target = |s|`; select
the attack coefficient when `target > current_level`, else the release
coefficient; `current_level += coefficient * (target - current_level)`. -/
noncomputable def specStep (attack_coeff release_coeff level s : ℝ) : ℝ :=
  level + (if |s| > level then attack_coeff else release_coeff) * (|s| - level)

/-- The envelope follower as described by the specification: scan the
per-sample update over the input starting from level `0`, emitting the
updated level each time. -/
noncomputable def specFollower (samples : List ℝ)
    (attack_ms release_ms sample_rate : ℝ) : List ℝ :=
  (samples.scanl
    (specStep (specCoeff attack_ms sample_rate) (specCoeff release_ms sample_rate)) 0).tail

lemma envStep_eq_specStep (ac rc env s : ℝ) :
    envStep ac rc env s = specStep ac rc env s := by
  unfold envStep specStep
  split <;> ring

lemma scanl_eq_head_cons_tail (f : ℝ → ℝ → ℝ) (b : ℝ) (l : List ℝ) :
    List.scanl f b l = b :: (List.scanl f b l).tail := by
  cases l <;> simp [List.scanl]

lemma envelopeFrom_eq_scanl_tail (ac rc : ℝ) (l : List ℝ) : ∀ env : ℝ,
    envelopeFrom ac rc env l = (List.scanl (specStep ac rc) env l).tail := by
  induction l with
  | nil => intro env; simp [envelopeFrom, List.scanl]
  | cons s rest ih =>
    intro env
    rw [List.scanl]
    simp only [List.tail_cons]
    rw [scanl_eq_head_cons_tail, envelopeFrom, envStep_eq_specStep, ← ih]

lemma envelopeFrom_length (ac rc : ℝ) (l : List ℝ) : ∀ env : ℝ,
    (envelopeFrom ac rc env l).length = l.length := by
  induction l with
  | nil => intro env; simp [envelopeFrom]
  | cons s rest ih => intro env; simp [envelopeFrom, ih]

lemma coeffOf_pos (t_ms sample_rate : ℝ) (hsr : 0 < sample_rate) :
    0 < coeffOf t_ms sample_rate := by
  unfold coeffOf
  split
  · norm_num
  · have ht : 0 < t_ms := by linarith [not_le.mp (by assumption)]
    have hden : 0 < t_ms * 0.001 * sample_rate := by positivity
    have harg : -2.2 / (t_ms * 0.001 * sample_rate) < 0 := by
      apply div_neg_of_neg_of_pos <;> [norm_num; exact hden]
    have := Real.exp_lt_one_iff.mpr harg
    linarith

lemma coeffOf_le_one (t_ms sample_rate : ℝ) :
    coeffOf t_ms sample_rate ≤ 1 := by
  unfold coeffOf
  split
  · norm_num
  · have := Real.exp_pos (-2.2 / (t_ms * 0.001 * sample_rate))
    linarith

lemma envStep_nonneg (ac rc env s : ℝ) (hac0 : 0 ≤ ac) (hac1 : ac ≤ 1)
    (hrc0 : 0 ≤ rc) (hrc1 : rc ≤ 1) (henv : 0 ≤ env) :
    0 ≤ envStep ac rc env s := by
  have habs : (0 : ℝ) ≤ |s| := abs_nonneg s
  unfold envStep
  split <;> nlinarith

lemma envelopeFrom_nonneg (ac rc : ℝ) (hac0 : 0 ≤ ac) (hac1 : ac ≤ 1)
    (hrc0 : 0 ≤ rc) (hrc1 : rc ≤ 1) (l : List ℝ) : ∀ env : ℝ, 0 ≤ env →
    ∀ x ∈ envelopeFrom ac rc env l, 0 ≤ x := by
  induction l with
  | nil => intro env _ x hx; simp [envelopeFrom] at hx
  | cons s rest ih =>
    intro env henv x hx
    simp only [envelopeFrom, List.mem_cons] at hx
    rcases hx with h | h
    · exact h ▸ envStep_nonneg ac rc env s hac0 hac1 hrc0 hrc1 henv
    · exact ih (envStep ac rc env s) (envStep_nonneg ac rc env s hac0 hac1 hrc0 hrc1 henv) x h

/-- C1: for positive sample rates, `envelope_follower` computes exactly the
per-sample recurrence stated by the specification: starting from level 0,
each sample is rectified, the attack coefficient is chosen when the target
exceeds the current level (otherwise the release coefficient), the level
moves toward the target by that fraction and is emitted; each coefficient is
`1` for a non-positive time constant and `1 - exp (-2.2 / (t_ms * 0.001 *
sample_rate))` otherwise. -/
theorem C1_envelope_matches_spec_recurrence (samples : List ℝ)
    (attack_ms release_ms sample_rate : ℝ) (hsr : 0 < sample_rate) :
    envelope_follower samples attack_ms release_ms sample_rate =
      specFollower samples attack_ms release_ms sample_rate := by
  unfold envelope_follower specFollower
  have hc : coeffOf = specCoeff := rfl
  rw [hc, envelopeFrom_eq_scanl_tail]

/-- Witness for C1 at a concrete input. -/
theorem C1_envelope_matches_spec_recurrence_witness :
    envelope_follower [1, 2] 0 0 1 = specFollower [1, 2] 0 0 1 :=
  C1_envelope_matches_spec_recurrence [1, 2] 0 0 1 one_pos

/-- C3: for non-negative attack and release times and a positive sample
rate, the output of `envelope_follower` has the same length as the input and
every emitted value is non-negative. -/
theorem C3_length_and_nonneg (samples : List ℝ)
    (attack_ms release_ms sample_rate : ℝ) (ha : 0 ≤ attack_ms)
    (hr : 0 ≤ release_ms) (hsr : 0 < sample_rate) :
    (envelope_follower samples attack_ms release_ms sample_rate).length =
        samples.length ∧
      ∀ x ∈ envelope_follower samples attack_ms release_ms sample_rate, 0 ≤ x := by
  constructor
  · exact envelopeFrom_length _ _ samples 0
  · exact envelopeFrom_nonneg _ _
      (le_of_lt (coeffOf_pos attack_ms sample_rate hsr))
      (coeffOf_le_one attack_ms sample_rate)
      (le_of_lt (coeffOf_pos release_ms sample_rate hsr))
      (coeffOf_le_one release_ms sample_rate)
      samples 0 le_rfl

/-- Witness for C3 at a concrete input. -/
theorem C3_length_and_nonneg_witness :
    (envelope_follower [3, -1] 10 10 100).length = 2 ∧
      ∀ x ∈ envelope_follower [3, -1] 10 10 100, 0 ≤ x := by
  have h := C3_length_and_nonneg [3, -1] 10 10 100 (by norm_num) (by norm_num)
    (by norm_num)
  simpa using h

/-- `apply_gain_curve` (`envelope.rs`, lines 29-34): multiply the signal
element-wise by the gain curve.  The `assert_eq!` on the two lengths is
modelled by returning `none` (the panic) exactly when the lengths differ. -/
noncomputable def apply_gain_curve (samples curve : List ℝ) : Option (List ℝ) :=
  if samples.length = curve.length then
    some (List.zipWith (fun s g => s * g) samples curve)
  else none

/-- C5: `apply_gain_curve` fails (panics, modelled as `none`) on mismatched
lengths and never silently proceeds; on equal lengths it produces the
element-wise product, and the curve `[0, 0.5, 0.5, 1]` applied to an
all-ones signal of length 4 yields exactly `[0, 0.5, 0.5, 1]`. -/
theorem C5_apply_gain_asserts_and_multiplies (samples curve : List ℝ) :
    (samples.length ≠ curve.length → apply_gain_curve samples curve = none) ∧
      (samples.length = curve.length →
        apply_gain_curve samples curve =
          some (List.zipWith (fun s g => s * g) samples curve)) ∧
      apply_gain_curve [1, 1, 1, 1] [0, 0.5, 0.5, 1] = some [0, 0.5, 0.5, 1] := by
  refine ⟨fun h => ?_, fun h => ?_, ?_⟩
  · simp [apply_gain_curve, h]
  · simp [apply_gain_curve, h]
  · norm_num [apply_gain_curve, List.zipWith]

/-- Witness for C5 at concrete inputs: a mismatched pair is rejected and an
equal-length pair is multiplied element-wise. -/
theorem C5_apply_gain_asserts_and_multiplies_witness :
    apply_gain_curve [(1 : ℝ), 2] [3] = none ∧
      apply_gain_curve [(2 : ℝ)] [3] = some [6] := by
  constructor
  · exact (C5_apply_gain_asserts_and_multiplies [(1 : ℝ), 2] [3]).1 (by norm_num)
  · have h := (C5_apply_gain_asserts_and_multiplies [(2 : ℝ)] [3]).2.1 (by norm_num)
    rw [h]
    norm_num [List.zipWith]

lemma envelopeFrom_append (ac rc : ℝ) (a : List ℝ) : ∀ (b : List ℝ) (env : ℝ),
    envelopeFrom ac rc env (a ++ b) =
      envelopeFrom ac rc env a ++
        envelopeFrom ac rc (a.foldl (envStep ac rc) env) b := by
  induction a with
  | nil => intro b env; simp [envelopeFrom]
  | cons s rest ih =>
    intro b env
    simp only [List.cons_append, envelopeFrom, List.foldl_cons, List.append_eq]
    rw [ih]

/-- C2 counterexample: with attack = release = 1000 ms and sample rate 2.2
(so that both coefficients equal `1 - exp (-1)`), the output of a second
call of `envelope_follower` on `[1]` differs from the corresponding suffix
of a single call on `[1] ++ [1]`: the function re-zeroes the level at each
call, so state does not persist across calls. -/
theorem C2_counterexample_state_reset :
    ¬ (envelope_follower [1] 1000 1000 2.2 =
        List.drop ([(1 : ℝ)].length)
          (envelope_follower ([(1 : ℝ)] ++ [1]) 1000 1000 2.2)) := by
  have he0 : 0 < Real.exp (-1) := Real.exp_pos _
  have he1 : Real.exp (-1) < 1 := Real.exp_lt_one_iff.mpr (by norm_num)
  have hc : coeffOf 1000 2.2 = 1 - Real.exp (-1) := by
    unfold coeffOf
    rw [if_neg (by norm_num)]
    norm_num
  set c : ℝ := 1 - Real.exp (-1) with hcdef
  have hstep0 : envStep c c 0 1 = c := by
    unfold envStep
    rw [if_pos (by norm_num)]
    norm_num
  have hstep1 : envStep c c c 1 = c + c * (1 - c) := by
    unfold envStep
    rw [if_pos (by rw [abs_one]; linarith)]
    rw [abs_one]
  intro h
  simp only [envelope_follower, hc, List.cons_append, List.nil_append,
    envelopeFrom, List.length_cons, List.length_nil, List.drop,
    hstep0, hstep1, List.cons.injEq, and_true] at h
  nlinarith [h]

/-- C2 amended: within a single call the level threads through the whole
input, so the output on `a ++ b` is the output on `a` followed by the
output of the loop on `b` started from the final level after `a`; across
separate calls, however, `envelope_follower` restarts from level 0. -/
theorem C2_amended_level_threads_within_call (a b : List ℝ)
    (attack_ms release_ms sample_rate : ℝ) :
    envelope_follower (a ++ b) attack_ms release_ms sample_rate =
      envelope_follower a attack_ms release_ms sample_rate ++
        envelopeFrom (coeffOf attack_ms sample_rate) (coeffOf release_ms sample_rate)
          (a.foldl
            (envStep (coeffOf attack_ms sample_rate) (coeffOf release_ms sample_rate)) 0)
          b := by
  unfold envelope_follower
  exact envelopeFrom_append _ _ a b 0

lemma foldl_max_mono_seed (l : List ℝ) : ∀ a b : ℝ, a ≤ b →
    l.foldl max a ≤ l.foldl max b := by
  induction l with
  | nil => intro a b h; simpa using h
  | cons x rest ih =>
    intro a b h
    simp only [List.foldl_cons]
    exact ih _ _ (max_le_max h le_rfl)

lemma envStep_le_max (ac rc env s : ℝ) (hac0 : 0 ≤ ac) (hac1 : ac ≤ 1)
    (hrc0 : 0 ≤ rc) (hrc1 : rc ≤ 1) :
    envStep ac rc env s ≤ max env |s| := by
  unfold envStep
  split
  · have h1 : |s| ≤ max env |s| := le_max_right _ _
    rename_i hcond
    nlinarith
  · have h1 : env ≤ max env |s| := le_max_left _ _
    rename_i hcond
    push_neg at hcond
    nlinarith

lemma envelopeFrom_le_running_max (ac rc : ℝ) (hac0 : 0 ≤ ac) (hac1 : ac ≤ 1)
    (hrc0 : 0 ≤ rc) (hrc1 : rc ≤ 1) (l : List ℝ) :
    ∀ (env : ℝ) (i : ℕ) (h : i < (envelopeFrom ac rc env l).length),
      (envelopeFrom ac rc env l).get ⟨i, h⟩ ≤
        ((l.take (i + 1)).map (fun s => |s|)).foldl max env := by
  induction l with
  | nil => intro env i h; simp [envelopeFrom] at h
  | cons s rest ih =>
    intro env i h
    cases i with
    | zero =>
      simpa [envelopeFrom] using
        envStep_le_max ac rc env s hac0 hac1 hrc0 hrc1
    | succ i =>
      have h2 : i < (envelopeFrom ac rc (envStep ac rc env s) rest).length := by
        simpa [envelopeFrom] using Nat.succ_lt_succ_iff.mp (by simpa [envelopeFrom] using h)
      have hget : (envelopeFrom ac rc env (s :: rest)).get ⟨i + 1, h⟩ =
          (envelopeFrom ac rc (envStep ac rc env s) rest).get ⟨i, h2⟩ := rfl
      rw [hget]
      calc (envelopeFrom ac rc (envStep ac rc env s) rest).get ⟨i, h2⟩
          ≤ ((rest.take (i + 1)).map (fun s => |s|)).foldl max (envStep ac rc env s) :=
            ih _ i h2
        _ ≤ ((rest.take (i + 1)).map (fun s => |s|)).foldl max (max env |s|) :=
            foldl_max_mono_seed _ _ _ (envStep_le_max ac rc env s hac0 hac1 hrc0 hrc1)
        _ = (((s :: rest).take (i + 1 + 1)).map (fun s => |s|)).foldl max env := by
            simp [List.take_succ_cons]

/-- C10: for a positive sample rate and any attack and release times, every
value emitted by `envelope_follower` at index `i` is bounded above by the
running peak `max` of the rectified input over indices `j ≤ i` (folded with
seed 0, the initial level). -/
theorem C10_never_exceeds_running_peak (samples : List ℝ)
    (attack_ms release_ms sample_rate : ℝ) (hsr : 0 < sample_rate) (i : ℕ)
    (h : i < (envelope_follower samples attack_ms release_ms sample_rate).length) :
    (envelope_follower samples attack_ms release_ms sample_rate).get ⟨i, h⟩ ≤
      ((samples.take (i + 1)).map (fun s => |s|)).foldl max 0 := by
  unfold envelope_follower at h ⊢
  exact envelopeFrom_le_running_max _ _
    (le_of_lt (coeffOf_pos attack_ms sample_rate hsr))
    (coeffOf_le_one attack_ms sample_rate)
    (le_of_lt (coeffOf_pos release_ms sample_rate hsr))
    (coeffOf_le_one release_ms sample_rate) samples 0 i h

/-- Witness for C10 at a concrete input. -/
theorem C10_never_exceeds_running_peak_witness :
    (envelope_follower [2] 0 0 1).get
        ⟨0, by simp [envelope_follower, envelopeFrom]⟩ ≤
      (([(2 : ℝ)].take 1).map (fun s => |s|)).foldl max 0 :=
  C10_never_exceeds_running_peak [2] 0 0 1 one_pos 0 _

/-- The harmonic sum of `saw_wave` (`wave.rs`, lines 2-8): for harmonics
`n = 1 .. terms`, accumulate `sign * sin (phase * n) / n` where `sign` is
`-1` for even `n` and `1` for odd `n`. -/
noncomputable def sawSum (phase : ℝ) : ℕ → ℝ
  | 0 => 0
  | n + 1 =>
    sawSum phase n +
      (if (n + 1) % 2 = 0 then (-1 : ℝ) else 1) *
        Real.sin (phase * ((n : ℝ) + 1)) / ((n : ℝ) + 1)

/-- `saw_wave` (`wave.rs`, lines 1-10): the harmonic sum scaled by `2 / π`. -/
noncomputable def saw_wave (phase : ℝ) (terms : ℕ) : ℝ :=
  2 / π * sawSum phase terms

/-- `sine_wave` (`wave.rs`, lines 47-50): `sin (2 π freq i / sample_rate)`
at sample index `i`. -/
noncomputable def sine_wave (freq sample_rate : ℝ) (sample_index : ℕ) : ℝ :=
  Real.sin (2 * π * freq * (sample_index : ℝ) / sample_rate)

/-- `sine_with_gain` (`wave.rs`, lines 52-58): enumerate the curve and
multiply the sine at each index by the gain at that index. -/
noncomputable def sine_with_gain (freq sample_rate : ℝ) (curve : List ℝ) : List ℝ :=
  curve.enum.map fun p => sine_wave freq sample_rate p.1 * p.2

/-- `saw_with_gain` (`wave.rs`, lines 60-69): enumerate the curve and
multiply the sawtooth at phase `2 π freq i / sample_rate` by the gain at
index `i`. -/
noncomputable def saw_with_gain (freq sample_rate : ℝ) (terms : ℕ)
    (curve : List ℝ) : List ℝ :=
  curve.enum.map fun p => saw_wave (2 * π * freq * (p.1 : ℝ) / sample_rate) terms * p.2

lemma sawSum_succ (phase : ℝ) (n : ℕ) :
    sawSum phase (n + 1) =
      sawSum phase n +
        (if (n + 1) % 2 = 0 then (-1 : ℝ) else 1) *
          Real.sin (phase * ((n : ℝ) + 1)) / ((n : ℝ) + 1) := rfl

lemma sawSum_eq_fourier_sum (phase : ℝ) : ∀ terms : ℕ,
    sawSum phase terms =
      ∑ n in Finset.Icc 1 terms, ((-1 : ℝ) ^ (n + 1) / n) * Real.sin (n * phase) := by
  intro terms
  induction terms with
  | zero => simp [sawSum]
  | succ t ih =>
    rw [sawSum_succ, ih, Finset.sum_Icc_succ_top (by omega : 1 ≤ t + 1)]
    congr 1
    have harg : phase * ((t : ℝ) + 1) = ((t + 1 : ℕ) : ℝ) * phase := by
      push_cast
      ring
    rw [harg]
    rcases Nat.even_or_odd t with he | ho
    · have hmod : ¬ (t + 1) % 2 = 0 := by
        rcases he with ⟨k, hk⟩
        omega
      have hpow : ((-1 : ℝ)) ^ (t + 1 + 1) = 1 := by
        have hev : Even (t + 1 + 1) := by
          rcases he with ⟨k, hk⟩
          exact ⟨k + 1, by omega⟩
        exact hev.neg_one_pow
      rw [if_neg hmod, hpow]
      push_cast
      ring
    · have hmod : (t + 1) % 2 = 0 := by
        rcases ho with ⟨k, hk⟩
        omega
      have hpow : ((-1 : ℝ)) ^ (t + 1 + 1) = -1 := by
        have hod : Odd (t + 1 + 1) := by
          rcases ho with ⟨k, hk⟩
          exact ⟨k + 1, by omega⟩
        exact hod.neg_one_pow
      rw [if_pos hmod, hpow]
      push_cast
      ring

/-- C4: `saw_wave phase terms` equals the truncated Fourier series of the
sawtooth, `(2 / π) * Σ_{n = 1}^{terms} (-1)^(n+1) / n * sin (n * phase)`,
and with a single harmonic it degenerates to the scaled pure sine
`(2 / π) * sin phase`. -/
theorem C4_saw_is_truncated_fourier_series (phase : ℝ) (harmonic_count : ℕ) :
    saw_wave phase harmonic_count =
        2 / π *
          ∑ n in Finset.Icc 1 harmonic_count,
            ((-1 : ℝ) ^ (n + 1) / n) * Real.sin (n * phase) ∧
      saw_wave phase 1 = 2 / π * Real.sin phase := by
  constructor
  · rw [saw_wave, sawSum_eq_fourier_sum]
  · rw [saw_wave]
    norm_num [sawSum]

/-- C8: the gain-combining transforms are total functions whose output
length is the curve's length, and the element at each index `i` below that
length is the oscillator value at phase `2 π freq i / sample_rate`
multiplied by the curve's value at `i`. -/
theorem C8_with_gain_length_and_values (freq sample_rate : ℝ) (terms : ℕ)
    (curve : List ℝ) :
    (sine_with_gain freq sample_rate curve).length = curve.length ∧
      (saw_with_gain freq sample_rate terms curve).length = curve.length ∧
      ∀ i < curve.length,
        (sine_with_gain freq sample_rate curve).getD i 0 =
            Real.sin (2 * π * freq * (i : ℝ) / sample_rate) * curve.getD i 0 ∧
          (saw_with_gain freq sample_rate terms curve).getD i 0 =
            saw_wave (2 * π * freq * (i : ℝ) / sample_rate) terms * curve.getD i 0 := by
  refine ⟨by simp [sine_with_gain], by simp [saw_with_gain], fun i hi => ⟨?_, ?_⟩⟩
  · have hlen : i < (sine_with_gain freq sample_rate curve).length := by
      simpa [sine_with_gain] using hi
    rw [List.getD_eq_getElem _ 0 hlen, List.getD_eq_getElem _ 0 hi]
    simp [sine_with_gain, sine_wave]
  · have hlen : i < (saw_with_gain freq sample_rate terms curve).length := by
      simpa [saw_with_gain] using hi
    rw [List.getD_eq_getElem _ 0 hlen, List.getD_eq_getElem _ 0 hi]
    simp [saw_with_gain]

/-- Witness for C8 at a concrete input. -/
theorem C8_with_gain_length_and_values_witness :
    (sine_with_gain 1 4 [5, 7]).length = 2 ∧
      (sine_with_gain 1 4 [(5 : ℝ), 7]).getD 0 0 =
        Real.sin (2 * π * 1 * ((0 : ℕ) : ℝ) / 4) * (5 : ℝ) := by
  refine ⟨(C8_with_gain_length_and_values 1 4 3 [5, 7]).1, ?_⟩
  have h := ((C8_with_gain_length_and_values 1 4 3 [(5 : ℝ), 7]).2.2 0 (by norm_num)).1
  simpa using h

/-- Mono reduction of `SubrouRs::process` (`lib.rs`, lines 144-155): each
output index accumulates the corresponding sample of every channel and is
then divided by `max num_channels 1`.  The loops add nothing at indices
past a channel's end, which `getD _ _ 0` reproduces; the host invariant is
that every channel has length `num_samples`. -/
noncomputable def reduce_to_mono (num_samples : ℕ) (channels : List (List ℝ)) : List ℝ :=
  (List.range num_samples).map fun i =>
    (channels.map fun ch => ch.getD i 0).sum / (max channels.length 1 : ℕ)

/-- Channel routing of `SubrouRs::process` (`lib.rs`, lines 169-183): a
selector of `0` adds the composed signal into every channel; otherwise the
0-based index `out_ch - 1` is computed and, when it is in range, that
channel is overwritten sample-by-sample with the signal; when it is out of
range nothing happens.  The `IntParam` is constrained to `0 ..= 10`, so the
selector is modelled as a natural number. -/
noncomputable def routeOutput (out_ch : ℕ) (saw : List ℝ)
    (channels : List (List ℝ)) : List (List ℝ) :=
  if out_ch = 0 then channels.map fun ch => List.zipWith (· + ·) ch saw
  else if out_ch - 1 < channels.length then channels.set (out_ch - 1) saw
  else channels

/-- C6: routing selector `0` mixes the signal into every channel; a valid
1-based selector replaces exactly that channel with the signal and leaves
every other channel unchanged; an out-of-range selector leaves every
channel unchanged, with no error. -/
theorem C6_routing_add_replace_ignore (out_ch : ℕ) (saw : List ℝ)
    (channels : List (List ℝ)) :
    (out_ch = 0 →
        (routeOutput out_ch saw channels).length = channels.length ∧
          ∀ j < channels.length,
            (routeOutput out_ch saw channels).getD j [] =
              List.zipWith (· + ·) (channels.getD j []) saw) ∧
      (1 ≤ out_ch → out_ch ≤ channels.length →
        (routeOutput out_ch saw channels).length = channels.length ∧
          (routeOutput out_ch saw channels).getD (out_ch - 1) [] = saw ∧
          ∀ j < channels.length, j ≠ out_ch - 1 →
            (routeOutput out_ch saw channels).getD j [] = channels.getD j []) ∧
      (channels.length < out_ch → routeOutput out_ch saw channels = channels) := by
  refine ⟨fun h0 => ?_, fun h1 hle => ?_, fun hout => ?_⟩
  · subst h0
    have hroute : routeOutput 0 saw channels =
        channels.map fun ch => List.zipWith (· + ·) ch saw := by
      simp [routeOutput]
    rw [hroute]
    refine ⟨by simp, fun j hj => ?_⟩
    have hj2 : j < (channels.map fun ch => List.zipWith (· + ·) ch saw).length := by
      simpa using hj
    rw [List.getD_eq_getElem _ _ hj2, List.getD_eq_getElem _ _ hj]
    simp
  · have hne : out_ch ≠ 0 := by omega
    have hidx : out_ch - 1 < channels.length := by omega
    simp only [routeOutput, if_neg hne, if_pos hidx]
    refine ⟨by simp, ?_, fun j hj hne2 => ?_⟩
    · have hlen : out_ch - 1 < (channels.set (out_ch - 1) saw).length := by
        simpa using hidx
      rw [List.getD_eq_getElem _ _ hlen]
      exact List.getElem_set_self _
    · have hlen : j < (channels.set (out_ch - 1) saw).length := by simpa using hj
      rw [List.getD_eq_getElem _ _ hlen, List.getD_eq_getElem _ _ hj]
      rw [List.getElem_set]
      rw [if_neg (by omega)]
  · have hne : out_ch ≠ 0 := by omega
    have hidx : ¬ out_ch - 1 < channels.length := by omega
    simp only [routeOutput, if_neg hne, if_neg hidx]

/-- Witness for C6 at concrete inputs: selector 1 on two one-sample
channels replaces the first channel and keeps the second. -/
theorem C6_routing_add_replace_ignore_witness :
    (routeOutput 1 [5] [[(1 : ℝ)], [2]]).getD 0 [] = [5] ∧
      (routeOutput 1 [5] [[(1 : ℝ)], [2]]).getD 1 [] = [2] := by
  have h := (C6_routing_add_replace_ignore 1 [5] [[(1 : ℝ)], [2]]).2.1
    (by norm_num) (by norm_num)
  exact ⟨h.2.1, h.2.2 1 (by norm_num) (by norm_num)⟩

/-- C7: with 1 or more channels of equal length `L`, the mono reducer
produces a sequence of length `L` whose element at each index is the
arithmetic mean of the channels at that index; with zero channels the
divisor is taken as 1 and the output is the all-zero sequence of length
`L`, with no failure. -/
theorem C7_mono_mean_and_zero_channels (channels : List (List ℝ)) (L : ℕ)
    (hlen : ∀ ch ∈ channels, ch.length = L) :
    (reduce_to_mono L channels).length = L ∧
      (channels ≠ [] →
        ∀ i < L, (reduce_to_mono L channels).getD i 0 =
          (channels.map fun ch => ch.getD i 0).sum / (channels.length : ℝ)) ∧
      (channels = [] → reduce_to_mono L channels = List.replicate L 0) := by
  refine ⟨by simp [reduce_to_mono], fun hne i hi => ?_, fun hemp => ?_⟩
  · have hi2 : i < (reduce_to_mono L channels).length := by
      simpa [reduce_to_mono] using hi
    rw [List.getD_eq_getElem _ _ hi2]
    have hmax : max channels.length 1 = channels.length := by
      have : 1 ≤ channels.length := by
        cases channels with
        | nil => exact absurd rfl hne
        | cons a l => simp
      omega
    simp [reduce_to_mono, hmax]
  · subst hemp
    apply List.ext_getElem
    · simp [reduce_to_mono]
    · intro i h1 h2
      simp [reduce_to_mono]

/-- Witness for C7 at a concrete input: two channels of length 2 average
to the element-wise mean, and the hypothesis of equal channel lengths is
discharged. -/
theorem C7_mono_mean_and_zero_channels_witness :
    (reduce_to_mono 2 [[(1 : ℝ), 3], [3, 5]]).length = 2 ∧
      (reduce_to_mono 2 [[(1 : ℝ), 3], [3, 5]]).getD 0 0 =
        ([[(1 : ℝ), 3], [3, 5]].map fun ch => ch.getD 0 0).sum / 2 := by
  have h := C7_mono_mean_and_zero_channels [[(1 : ℝ), 3], [3, 5]] 2
    (by intro ch hch; simp at hch; rcases hch with h | h <;> simp [h])
  refine ⟨h.1, ?_⟩
  have h2 := h.2.1 (by simp) 0 (by norm_num)
  simpa using h2

/-- Partial sum of the Leibniz series, the value that the sawtooth harmonic
sum takes at phase `π / 2` after pairing each vanishing even harmonic with
its preceding odd harmonic. -/
noncomputable def leibniz (j : ℕ) : ℝ :=
  ∑ k in Finset.range j, (-1 : ℝ) ^ k / (2 * k + 1)

lemma cos_nat_mul_pi (j : ℕ) : Real.cos ((j : ℝ) * π) = (-1) ^ j := by
  simpa using Real.cos_nat_mul_pi_sub 0 j

lemma sawSum_pi_div_two_even : ∀ j : ℕ, sawSum (π / 2) (2 * j) = leibniz j := by
  intro j
  induction j with
  | zero => simp [sawSum, leibniz]
  | succ j ih =>
    have h2 : 2 * (j + 1) = 2 * j + 1 + 1 := by ring
    rw [h2, sawSum_succ, sawSum_succ, ih]
    have hmod1 : ¬ (2 * j + 1) % 2 = 0 := by omega
    have hmod2 : (2 * j + 1 + 1) % 2 = 0 := by omega
    rw [if_neg hmod1, if_pos hmod2]
    have harg1 : (π / 2) * (((2 * j : ℕ) : ℝ) + 1) = (j : ℝ) * π + π / 2 := by
      push_cast
      ring
    have harg2 : (π / 2) * (((2 * j + 1 : ℕ) : ℝ) + 1) = ((j + 1 : ℕ) : ℝ) * π := by
      push_cast
      ring
    rw [harg1, harg2, Real.sin_add_pi_div_two, cos_nat_mul_pi, Real.sin_nat_mul_pi]
    have hstep : leibniz (j + 1) = leibniz j + (-1 : ℝ) ^ j / (2 * (j : ℝ) + 1) := by
      rw [leibniz, leibniz, Finset.sum_range_succ]
    rw [hstep]
    push_cast
    ring

set_option maxRecDepth 4000 in
lemma leibniz_100_bounds : (39 : ℝ) / 50 < leibniz 100 ∧ leibniz 100 < 393 / 500 := by
  unfold leibniz
  norm_num [Finset.sum_range_succ]

lemma sawSum_neg_phase (p : ℝ) : ∀ n : ℕ, sawSum (-p) n = -sawSum p n := by
  intro n
  induction n with
  | zero => simp [sawSum]
  | succ n ih =>
    rw [sawSum_succ, sawSum_succ, ih, neg_mul, Real.sin_neg]
    ring

lemma sawSum_zero_phase : ∀ n : ℕ, sawSum 0 n = 0 := by
  intro n
  induction n with
  | zero => simp [sawSum]
  | succ n ih => rw [sawSum_succ, ih]; simp

lemma saw_wave_pi_div_two_bounds :
    (49 : ℝ) / 100 ≤ saw_wave (π / 2) 200 ∧ saw_wave (π / 2) 200 ≤ 51 / 100 := by
  have hsum : sawSum (π / 2) 200 = leibniz 100 := by
    have h := sawSum_pi_div_two_even 100
    norm_num at h
    exact h
  have hL := leibniz_100_bounds
  have hπ5 : (3.141592 : ℝ) < π := Real.pi_gt_d6
  have hπ6 : π < 3.141593 := Real.pi_lt_d6
  have hπ0 : (0 : ℝ) < π := Real.pi_pos
  have heq : saw_wave (π / 2) 200 = 2 * leibniz 100 / π := by
    rw [saw_wave, hsum]
    ring
  rw [heq]
  constructor
  · rw [le_div_iff₀ hπ0]
    nlinarith [hL.1, hL.2]
  · rw [div_le_iff₀ hπ0]
    nlinarith [hL.1, hL.2]

/-- C9: `saw_wave` at phase `π / 2` with 200 harmonics is within 0.01 of
0.5, at phase `-π / 2` within 0.01 of -0.5, and at phase 0 within `1e-6`
of 0 for every harmonic count (there it is exactly 0). -/
theorem C9_saw_quarter_period_values :
    |saw_wave (π / 2) 200 - 0.5| ≤ 0.01 ∧
      |saw_wave (-(π / 2)) 200 + 0.5| ≤ 0.01 ∧
      ∀ harmonics : ℕ, |saw_wave 0 harmonics - 0| ≤ 1e-6 := by
  have hb := saw_wave_pi_div_two_bounds
  refine ⟨?_, ?_, ?_⟩
  · rw [abs_le]
    constructor <;> [linarith [hb.1]; linarith [hb.2]]
  · have hneg : saw_wave (-(π / 2)) 200 = -saw_wave (π / 2) 200 := by
      rw [saw_wave, saw_wave, sawSum_neg_phase]
      ring
    rw [hneg, abs_le]
    constructor <;> [linarith [hb.2]; linarith [hb.1]]
  · intro harmonics
    rw [saw_wave, sawSum_zero_phase]
    norm_num
